import Mathlib

/-!
# Formik form-state library: verification of the path accessors,
# state typing discipline, field registry and rendering logic

A shallow embedding of the parts of the `formik` repository that the
specification talks about: path-based `getIn` / `setIn` into nested plain
data, the `FormikErrors` / `FormikTouched` typing discipline, the field
registry with its registration lifecycle, validation-result merging, the
`ErrorMessage` rendering decision and the `useFieldProps` checkbox/radio
`checked` computation.

JavaScript values are modelled by the inductive `JsValue`; `undefined` is
modelled by `Option JsValue` (with `none` for `undefined`), so a function
that can yield `undefined` returns an `Option`.
-/

set_option autoImplicit false

namespace Formik

/-- A JSON-like JavaScript value: primitives, objects (ordered association
lists of string keys, as JS object literals are) and arrays. -/
inductive JsValue where
  | null : JsValue
  | bool : Bool → JsValue
  | num : Int → JsValue
  | str : String → JsValue
  | obj : List (String × JsValue) → JsValue
  | arr : List JsValue → JsValue

/-- Association-list lookup: the value of the first entry with the given
key, mirroring JS object property access (object keys are unique in JS, so
first-match is exact). -/
def alistLookup {α : Type} : List (String × α) → String → Option α
  | [], _ => none
  | (k', v) :: rest, k => if k' = k then some v else alistLookup rest k

/-- Association-list update: replace the entry with the given key, or
append a new entry when the key is absent (JS property assignment). -/
def alistUpdate {α : Type} : List (String × α) → String → α → List (String × α)
  | [], k, v => [(k, v)]
  | (k', v') :: rest, k, v =>
      if k' = k then (k, v) :: rest else (k', v') :: alistUpdate rest k v

/-- Association-list removal of every entry with the given key
(JS `delete obj[k]`). -/
def alistRemove {α : Type} (l : List (String × α)) (k : String) :
    List (String × α) :=
  l.filter (fun p => p.1 ≠ k)

/-- One token of a parsed field path: a string key into an object or an
integer index into an array. -/
inductive PathToken where
  | key : String → PathToken
  | idx : Nat → PathToken
  deriving DecidableEq, Repr

/-- Modelled from the spec: the path parser `toPath` of `utils.ts` is not
among the sources (only its callers in `Field.tsx` / `ErrorMessage.tsx`
and its tests are).  Per the spec it "parses a path into an ordered
sequence of string/integer tokens", "split into tokens crossing both dot
and bracket syntax".  Splitting on `.`, `[` and `]`: character-level
splitter. -/
def splitPathChars : List Char → List Char → List (List Char)
  | [], acc => [acc.reverse]
  | c :: cs, acc =>
      if c = '.' ∨ c = '[' ∨ c = ']' then
        acc.reverse :: splitPathChars cs []
      else
        splitPathChars cs (c :: acc)

/-- Digit run to a natural number (most significant first). -/
def digitsToNat : List Char → Nat → Nat
  | [], acc => acc
  | c :: cs, acc => digitsToNat cs (acc * 10 + (c.toNat - '0'.toNat))

/-- Classify one raw token: an all-digit token is an integer (array
index), anything else is a string key. -/
def classifyToken (cs : List Char) : PathToken :=
  if cs ≠ [] ∧ cs.all (fun c => c.isDigit) then
    PathToken.idx (digitsToNat cs 0)
  else
    PathToken.key (String.mk cs)

/-- Modelled from the spec: parse a path string such as
`user.superPowers[1]` into its ordered token sequence, treating dot and
bracket syntax uniformly. -/
def toPath (p : String) : List PathToken :=
  ((splitPathChars p.data []).filter (fun cs => cs ≠ [])).map classifyToken

/-- Read one token off a value: object + key is property lookup, array +
integer is indexing; an integer token against an object coerces to the
decimal string key as JS property access does; everything else is
`undefined`. -/
def getToken : JsValue → PathToken → Option JsValue
  | JsValue.obj fs, PathToken.key k => alistLookup fs k
  | JsValue.obj fs, PathToken.idx i => alistLookup fs (Nat.repr i)
  | JsValue.arr xs, PathToken.idx i => xs[i]?
  | _, _ => none

/-- Walk a token sequence; `none` (undefined) as soon as any intermediate
is missing. -/
def getTokens : JsValue → List PathToken → Option JsValue
  | o, [] => some o
  | o, t :: rest =>
      match getToken o t with
      | none => none
      | some c => getTokens c rest

/-- Modelled from the spec: `getIn` of `utils.ts` is not among the
sources.  Per the spec: "get returns undefined on any missing
intermediate"; it parses the path and walks the tokens. -/
def getIn (o : JsValue) (p : String) : Option JsValue :=
  getTokens o (toPath p)

/-- Set position `i` of a list, padding with `null` when the index is past
the end (JS array holes read back as undefined; `null` stands for the
filler). -/
def listPadSet : List JsValue → Nat → JsValue → List JsValue
  | [], 0, v => [v]
  | [], i + 1, v => JsValue.null :: listPadSet [] i v
  | _ :: xs, 0, v => v :: xs
  | x :: xs, i + 1, v => x :: listPadSet xs i v

/-- Write one token into a value.  An existing object or array is updated
in place; a leaf (or a kind mismatch on a key token) is replaced by a
fresh container whose kind is dictated by the token: an array for an
integer token, an object for a string key. -/
def updateToken : JsValue → PathToken → JsValue → JsValue
  | JsValue.obj fs, PathToken.key k, x => JsValue.obj (alistUpdate fs k x)
  | JsValue.obj fs, PathToken.idx i, x =>
      JsValue.obj (alistUpdate fs (Nat.repr i) x)
  | JsValue.arr xs, PathToken.idx i, x => JsValue.arr (listPadSet xs i x)
  | _, PathToken.key k, x => JsValue.obj [(k, x)]
  | _, PathToken.idx i, x => JsValue.arr (listPadSet [] i x)

/-- Modelled from the spec: the recursive core of `setIn`, which is not
among the sources.  Per the spec: "set creates intermediate
objects/arrays lazily, using integer tokens to indicate array indices".
`none` for the current position means the intermediate is missing and a
fresh container is created for the next token. -/
def setTokens : Option JsValue → List PathToken → JsValue → JsValue
  | _, [], v => v
  | cur, t :: rest, v =>
      let c := cur.getD JsValue.null
      updateToken c t (setTokens (getToken c t) rest v)

/-- Modelled from the spec: `setIn` of `utils.ts`, parsing the path and
writing along the token sequence. -/
def setIn (o : JsValue) (p : String) (v : JsValue) : JsValue :=
  setTokens (some o) (toPath p) v

/-- Is the value an object? -/
def isObjJ : JsValue → Bool
  | JsValue.obj _ => true
  | _ => false

/-- Is the value an array? -/
def isArrJ : JsValue → Bool
  | JsValue.arr _ => true
  | _ => false

/-- The nested object of the repository's bracket-path tests:
`{ user: { superPowers: ['Surging', 'Binding'] } }`. -/
def demoUser : JsValue :=
  JsValue.obj [("user", JsValue.obj [("superPowers",
    JsValue.arr [JsValue.str "Surging", JsValue.str "Binding"])])]

/-- The nesting structure of a `values` record, abstracted from the
concrete leaf data: a primitive leaf, an object with named fields, or an
array of elements of one shape.  `FormikErrors<Values>` and
`FormikTouched<Values>` (types.tsx) are generic in this shape. -/
inductive ValShape where
  | prim : ValShape
  | obj : List (String × ValShape) → ValShape
  | arr : ValShape → ValShape

/-- `e` inhabits `FormikErrors<Values>` for values of shape `sh`
(types.tsx): for a primitive field a plain string; for an array-valued
field a string, an array of strings, or — when the element is an object —
an array of nested error maps; for an object-valued field a map whose
keys are keys of the values object, with recursively well-formed
entries. -/
inductive ErrWf : ValShape → JsValue → Prop where
  | prim (s : String) : ErrWf ValShape.prim (JsValue.str s)
  | arrStr (sh : ValShape) (s : String) :
      ErrWf (ValShape.arr sh) (JsValue.str s)
  | arrStrList (sh : ValShape) (xs : List JsValue)
      (h : ∀ x ∈ xs, ∃ s, x = JsValue.str s) :
      ErrWf (ValShape.arr sh) (JsValue.arr xs)
  | arrObjList (fields : List (String × ValShape)) (xs : List JsValue)
      (h : ∀ x ∈ xs, ErrWf (ValShape.obj fields) x) :
      ErrWf (ValShape.arr (ValShape.obj fields)) (JsValue.arr xs)
  | objMap (fields : List (String × ValShape))
      (entries : List (String × JsValue))
      (hk : ∀ p ∈ entries, (alistLookup fields p.1).isSome = true)
      (h : ∀ p ∈ entries,
          ErrWf ((alistLookup fields p.1).getD ValShape.prim) p.2) :
      ErrWf (ValShape.obj fields) (JsValue.obj entries)

/-- `t` inhabits `FormikTouched<Values>` for values of shape `sh`
(types.tsx): a boolean for a primitive field; for an array-valued field a
boolean or — when the element is an object — an array of nested touched
maps; for an object-valued field a map whose keys are keys of the values
object, with recursively well-formed entries. -/
inductive TouchedWf : ValShape → JsValue → Prop where
  | prim (b : Bool) : TouchedWf ValShape.prim (JsValue.bool b)
  | arrBool (sh : ValShape) (b : Bool) :
      TouchedWf (ValShape.arr sh) (JsValue.bool b)
  | arrObjList (fields : List (String × ValShape)) (xs : List JsValue)
      (h : ∀ x ∈ xs, TouchedWf (ValShape.obj fields) x) :
      TouchedWf (ValShape.arr (ValShape.obj fields)) (JsValue.arr xs)
  | objMap (fields : List (String × ValShape))
      (entries : List (String × JsValue))
      (hk : ∀ p ∈ entries, (alistLookup fields p.1).isSome = true)
      (h : ∀ p ∈ entries,
          TouchedWf ((alistLookup fields p.1).getD ValShape.prim) p.2) :
      TouchedWf (ValShape.obj fields) (JsValue.obj entries)

/-- Structural validity of a token sequence against a values shape:
object shapes accept their keys (an integer token coerces to its decimal
string key, as in `getToken`), array shapes accept any index, any shape
accepts the empty path. -/
def shapeValidB : ValShape → List PathToken → Bool
  | _, [] => true
  | ValShape.obj fields, PathToken.key k :: rest =>
      match alistLookup fields k with
      | some sh => shapeValidB sh rest
      | none => false
  | ValShape.obj fields, PathToken.idx i :: rest =>
      match alistLookup fields (Nat.repr i) with
      | some sh => shapeValidB sh rest
      | none => false
  | ValShape.arr el, PathToken.idx _ :: rest => shapeValidB el rest
  | ValShape.arr _, PathToken.key _ :: _ => false
  | ValShape.prim, _ :: _ => false

mutual
/-- Every leaf (non-container) of an error tree is a string. -/
def errLeavesOk : JsValue → Bool
  | JsValue.str _ => true
  | JsValue.obj fs => errLeavesOkFields fs
  | JsValue.arr xs => errLeavesOkList xs
  | _ => false

def errLeavesOkFields : List (String × JsValue) → Bool
  | [] => true
  | (_, v) :: rest => errLeavesOk v && errLeavesOkFields rest

def errLeavesOkList : List JsValue → Bool
  | [] => true
  | x :: rest => errLeavesOk x && errLeavesOkList rest
end

mutual
/-- Every leaf (non-container) of a touched tree is a boolean. -/
def touchedLeavesOk : JsValue → Bool
  | JsValue.bool _ => true
  | JsValue.obj fs => touchedLeavesOkFields fs
  | JsValue.arr xs => touchedLeavesOkList xs
  | _ => false

def touchedLeavesOkFields : List (String × JsValue) → Bool
  | [] => true
  | (_, v) :: rest => touchedLeavesOk v && touchedLeavesOkFields rest

def touchedLeavesOkList : List JsValue → Bool
  | [] => true
  | x :: rest => touchedLeavesOk x && touchedLeavesOkList rest
end

/-- A one-field form shape, for concrete instances. -/
def demoShapeFields : List (String × ValShape) := [("name", ValShape.prim)]

/-- The shape `{ name: string }`. -/
def demoShape : ValShape := ValShape.obj demoShapeFields

/-- A concrete errors map for `demoShape`. -/
def demoErrors : JsValue := JsValue.obj [("name", JsValue.str "Required")]

/-- A concrete touched map for `demoShape`. -/
def demoTouched : JsValue := JsValue.obj [("name", JsValue.bool true)]

/-- A field-level validator (`FieldValidator` of types.tsx,
`(value: any) => string | void | Promise<string | void>`): failure is
returned as data — `some msg` is the error message, `none` is success;
the promise case is collapsed to its resolved value, matching the
single-threaded model of the spec.  The argument is the field's value,
possibly undefined. -/
abbrev FieldValidatorM : Type := Option JsValue → Option String

/-- The field registry (`FieldRegistry` of types.tsx): a map from field
name to an optional validator function. -/
abbrev FieldRegistryM : Type := List (String × Option FieldValidatorM)

/-- `registerField` (FormikRegistration of types.tsx): record the field
name with its validator. -/
def registerField (reg : FieldRegistryM) (name : String)
    (validate : Option FieldValidatorM) : FieldRegistryM :=
  alistUpdate reg name validate

/-- `unregisterField` (FormikRegistration of types.tsx): drop the field
name from the registry. -/
def unregisterField (reg : FieldRegistryM) (name : String) : FieldRegistryM :=
  alistRemove reg name

/-- Is the name currently registered? -/
def registeredB (reg : FieldRegistryM) (name : String) : Bool :=
  (alistLookup reg name).isSome

/-- Modelled from the spec: the pre-submit field-level validation driver
is not among the sources; per the spec the registry is "a mapping from
field name to an optional validator function, used to run field-level
validation before submission".  Each registered field that has a
validator is run, on that field's current value, yielding its result as
data. -/
def runFieldLevelValidation (reg : FieldRegistryM) (values : JsValue) :
    List (String × Option String) :=
  reg.filterMap (fun p => p.2.map (fun f => (p.1, f (getIn values p.1))))

/-- The names of the registered fields that carry a validator. -/
def fieldsWithValidators (reg : FieldRegistryM) : List String :=
  reg.filterMap (fun p => p.2.map (fun _ => p.1))

/-- Entries of `fb` whose key is absent from `fa`. -/
def restFields (fa fb : List (String × JsValue)) : List (String × JsValue) :=
  fb.filter (fun p => (alistLookup fa p.1).isNone)

mutual
/-- Modelled from the spec: the combination of per-field and whole-form
validation results is not among the sources; per the spec it "is a
straightforward deep-merge" of error maps.  Two objects merge
recursively key by key; on any other pair the right operand wins. -/
def deepMerge : JsValue → JsValue → JsValue
  | JsValue.obj fa, JsValue.obj fb =>
      JsValue.obj (deepMergeFs fa fb ++ restFields fa fb)
  | _, b => b

/-- Merge the entries of the left object with the matching entries of the
right one, keeping the left order. -/
def deepMergeFs : List (String × JsValue) → List (String × JsValue) →
    List (String × JsValue)
  | [], _ => []
  | (k, va) :: rest, fb =>
      (k, match alistLookup fb k with
          | some vb => deepMerge va vb
          | none => va) :: deepMergeFs rest fb
end

/-- The output of `ErrorMessageImpl.render` (ErrorMessage.tsx): React
null, an element created around the error for a `component` prop, or the
bare error value; nodes returned by user `render`/`children` functions
are whatever those functions produce. -/
inductive RNode where
  | null : RNode
  | elementWith : String → JsValue → RNode
  | raw : JsValue → RNode
  | custom : Nat → RNode

/-- The props of `ErrorMessage` (ErrorMessage.tsx): `render` and
`children` are user functions of the error message (present or absent),
`component` an element type. -/
structure EMProps where
  name : String
  render : Option (JsValue → RNode)
  children : Option (JsValue → RNode)
  component : Option String

/-- The slice of Formik context that `ErrorMessageImpl.render` reads. -/
structure FormikSlice where
  errors : JsValue
  touched : JsValue

/-- JavaScript truthiness of a value. -/
def truthy : JsValue → Bool
  | JsValue.null => false
  | JsValue.bool b => b
  | JsValue.num n => n != 0
  | JsValue.str s => s != ""
  | JsValue.obj _ => true
  | JsValue.arr _ => true

/-- Truthiness with `undefined` (`none`) falsy. -/
def truthyOpt : Option JsValue → Bool
  | none => false
  | some v => truthy v

/-- `ErrorMessageImpl.render` (ErrorMessage.tsx lines 32-47): guard on
`!!touch && !!error`, then try `render`, `children`, `component`, bare
error, in that order.  With the props typed, `isFunction(render)` and
`isFunction(children)` hold whenever the prop is present. -/
def errorMessageRender (props : EMProps) (formik : FormikSlice) : RNode :=
  let touch := getIn formik.touched props.name
  let error := getIn formik.errors props.name
  if truthyOpt touch && truthyOpt error then
    match props.render with
    | some r => r (error.getD JsValue.null)
    | none =>
        match props.children with
        | some c => c (error.getD JsValue.null)
        | none =>
            match props.component with
            | some comp => RNode.elementWith comp (error.getD JsValue.null)
            | none => RNode.raw (error.getD JsValue.null)
  else
    RNode.null

/-- JS strict equality (`===`) on the value model: structural on
primitives; `false` on objects and arrays, which JS compares by reference
and which are conservatively taken distinct. -/
def jsStrictEq : JsValue → JsValue → Bool
  | JsValue.null, JsValue.null => true
  | JsValue.bool a, JsValue.bool b => a == b
  | JsValue.num a, JsValue.num b => a == b
  | JsValue.str a, JsValue.str b => a == b
  | _, _ => false

/-- Strict equality with `undefined` (`none`):
`undefined === undefined` holds. -/
def optStrictEq : Option JsValue → Option JsValue → Bool
  | none, none => true
  | some a, some b => jsStrictEq a b
  | _, _ => false

/-- `useFieldProps` (hooks.ts lines 60-75): the `checked` prop computed
for a checkbox or radio input, `none` when neither branch sets it.
`valueState` is the field's current state (`fieldMeta.value`, possibly
undefined) and `valueProp` the `value` prop of the field config.  A
checkbox without a `value` prop is checked by the truthiness of the
state; one with a `value` prop by
`Array.isArray(valueState) && ~valueState.indexOf(valueProp)`; a radio by
`valueState === valueProp`. -/
def fieldChecked (type : String) (valueState : Option JsValue)
    (valueProp : Option JsValue) : Option Bool :=
  if type = "checkbox" then
    match valueProp with
    | none => some (truthyOpt valueState)
    | some vp =>
        some (match valueState with
          | some (JsValue.arr xs) => xs.any (fun x => jsStrictEq x vp)
          | _ => false)
  else if type = "radio" then
    some (optStrictEq valueState valueProp)
  else
    none

/-- `componentDidMount` of `FieldInner` (Field.tsx line 127): register
the field's name with its validator. -/
def lifecycleMount (reg : FieldRegistryM) (name : String)
    (validate : Option FieldValidatorM) : FieldRegistryM :=
  registerField reg name validate

/-- `componentDidUpdate` of `FieldInner` (Field.tsx lines 133-142): when
the name changed, unregister the previous name then register the new one;
when (also or only) the validator changed, register again under the
current name. -/
def lifecycleUpdate (reg : FieldRegistryM) (prevName name : String)
    (validate : Option FieldValidatorM) (validateChanged : Bool) :
    FieldRegistryM :=
  let reg1 :=
    if name ≠ prevName then
      registerField (unregisterField reg prevName) name validate
    else reg
  if validateChanged then registerField reg1 name validate else reg1

/-- `componentWillUnmount` of `FieldInner` (Field.tsx line 144):
unregister the field's name. -/
def lifecycleUnmount (reg : FieldRegistryM) (name : String) :
    FieldRegistryM :=
  unregisterField reg name

/-- A concrete registry: `name` has a validator, `age` has none. -/
def demoRegistry : FieldRegistryM :=
  [("name", some (fun _ => some "Required")), ("age", none)]

/-- Concrete `ErrorMessage` props: no `render`, `children` or
`component`, so the bare error is rendered. -/
def demoEMProps : EMProps :=
  { name := "name", render := none, children := none, component := none }

/-- A concrete context slice for `ErrorMessage`. -/
def demoFormikSlice : FormikSlice :=
  { errors := demoErrors, touched := demoTouched }

end Formik

namespace Formik

theorem getTokens_append_none (o : JsValue) (ts₁ ts₂ : List PathToken)
    (h : getTokens o ts₁ = none) : getTokens o (ts₁ ++ ts₂) = none := by
  induction ts₁ generalizing o with
  | nil => simp [getTokens] at h
  | cons t rest ih =>
      cases hg : getToken o t with
      | none => simp [getTokens, hg]
      | some c =>
          simp only [getTokens, hg, List.cons_append] at h ⊢
          exact ih c h

theorem alistLookup_update_self {α : Type} (l : List (String × α)) (k : String)
    (v : α) : alistLookup (alistUpdate l k v) k = some v := by
  induction l with
  | nil => simp [alistUpdate, alistLookup]
  | cons p rest ih =>
      obtain ⟨k2, v2⟩ := p
      by_cases h : k2 = k
      · simp [alistUpdate, alistLookup, h]
      · simp [alistUpdate, alistLookup, h, ih]

theorem alistLookup_update_ne {α : Type} (l : List (String × α)) (k k2 : String)
    (v : α) (h : k2 ≠ k) :
    alistLookup (alistUpdate l k v) k2 = alistLookup l k2 := by
  have hk : ¬k = k2 := fun hh => h hh.symm
  induction l with
  | nil => simp [alistUpdate, alistLookup, hk]
  | cons p rest ih =>
      obtain ⟨k3, v3⟩ := p
      by_cases h3 : k3 = k
      · subst h3
        simp [alistUpdate, alistLookup, hk]
      · simp [alistUpdate, alistLookup, h3, ih]

theorem listPadSet_get_self (i : Nat) (xs : List JsValue) (v : JsValue) :
    (listPadSet xs i v)[i]? = some v := by
  induction i generalizing xs with
  | zero => cases xs <;> simp [listPadSet]
  | succ m ih =>
      cases xs with
      | nil => simpa [listPadSet] using ih []
      | cons x t => simpa [listPadSet] using ih t

theorem listPadSet_get_ne (i : Nat) (xs : List JsValue) (j : Nat) (v : JsValue)
    (hne : j ≠ i) (hlt : j < xs.length) :
    (listPadSet xs i v)[j]? = xs[j]? := by
  induction i generalizing xs j with
  | zero =>
      cases xs with
      | nil => simp at hlt
      | cons x t =>
          cases j with
          | zero => exact absurd rfl hne
          | succ m => simp [listPadSet]
  | succ m ih =>
      cases xs with
      | nil => simp at hlt
      | cons x t =>
          cases j with
          | zero => simp [listPadSet]
          | succ n =>
              have hne2 : n ≠ m := fun hh => hne (by simp [hh])
              have hlt2 : n < t.length := by simpa using hlt
              simpa [listPadSet] using ih t n hne2 hlt2

theorem getToken_updateToken (c : JsValue) (t : PathToken) (x : JsValue) :
    getToken (updateToken c t x) t = some x := by
  cases c <;> cases t <;>
    simp [updateToken, getToken, alistLookup, alistLookup_update_self,
      listPadSet_get_self]

theorem getTokens_setTokens (cur : Option JsValue) (ts : List PathToken)
    (v : JsValue) : getTokens (setTokens cur ts v) ts = some v := by
  induction ts generalizing cur with
  | nil => simp [setTokens, getTokens]
  | cons t rest ih =>
      simp only [setTokens, getTokens, getToken_updateToken]
      exact ih _

/-- C1: for every object and path string, `getIn` returns undefined
(`none`) whenever any intermediate along the parsed token sequence is
missing — once a prefix of the tokens resolves to nothing, the whole walk
does; and it never throws: being a total Lean function it always yields a
defined result (`none` or `some`), matching the source's silent
undefined-propagation. -/
theorem getIn_missing_intermediate_none :
    (∀ (o : JsValue) (s : String) (ts₁ ts₂ : List PathToken),
        toPath s = ts₁ ++ ts₂ → getTokens o ts₁ = none → getIn o s = none) ∧
    (∀ (o : JsValue) (s : String),
        getIn o s = none ∨ ∃ v, getIn o s = some v) := by
  constructor
  · intro o s ts₁ ts₂ hsplit hmiss
    unfold getIn
    rw [hsplit]
    exact getTokens_append_none o ts₁ ts₂ hmiss
  · intro o s
    cases h : getIn o s with
    | none => exact Or.inl rfl
    | some v => exact Or.inr ⟨v, rfl⟩

/-- Witness for C1: on `{a: "x"}` the path `b.c` has the missing
intermediate `b`, and `getIn` yields undefined. -/
theorem getIn_missing_intermediate_none_witness :
    getIn (JsValue.obj [("a", JsValue.str "x")]) "b.c" = none :=
  getIn_missing_intermediate_none.1 (JsValue.obj [("a", JsValue.str "x")])
    "b.c" [PathToken.key "b"] [PathToken.key "c"] (by decide) rfl

/-- C2: `setIn` creates missing intermediate containers lazily — a fresh
container created for an integer token is an array and one created for a
string token is an object — and it leaves the container entries outside
the written path untouched: sibling object keys, and array positions that
were present before, read the same after the write. -/
theorem setIn_lazy_creation_and_frame :
    (∀ (k : String) (rest : List PathToken) (v : JsValue),
        isObjJ (setTokens none (PathToken.key k :: rest) v) = true) ∧
    (∀ (i : Nat) (rest : List PathToken) (v : JsValue),
        isArrJ (setTokens none (PathToken.idx i :: rest) v) = true) ∧
    (∀ (fs : List (String × JsValue)) (k k2 : String) (rest : List PathToken)
        (v : JsValue), k2 ≠ k →
        getToken (setTokens (some (JsValue.obj fs)) (PathToken.key k :: rest) v)
            (PathToken.key k2) =
          getToken (JsValue.obj fs) (PathToken.key k2)) ∧
    (∀ (xs : List JsValue) (i j : Nat) (rest : List PathToken) (v : JsValue),
        j ≠ i → j < xs.length →
        getToken (setTokens (some (JsValue.arr xs)) (PathToken.idx i :: rest) v)
            (PathToken.idx j) =
          getToken (JsValue.arr xs) (PathToken.idx j)) := by
  refine ⟨?_, ?_, ?_, ?_⟩
  · intro k rest v
    simp [setTokens, updateToken, isObjJ]
  · intro i rest v
    simp [setTokens, updateToken, isArrJ]
  · intro fs k k2 rest v hne
    simp only [setTokens, updateToken, getToken]
    exact alistLookup_update_ne fs k k2 _ hne
  · intro xs i j rest v hne hlt
    simp only [setTokens, updateToken, getToken]
    exact listPadSet_get_ne i xs j _ hne hlt

/-- Witness for C2: writing key `b` leaves sibling key `a` unchanged, and
writing index 0 leaves index 1 unchanged. -/
theorem setIn_lazy_creation_and_frame_witness :
    getToken (setTokens (some (JsValue.obj [("a", JsValue.str "keep")]))
        [PathToken.key "b"] (JsValue.str "v")) (PathToken.key "a") =
      getToken (JsValue.obj [("a", JsValue.str "keep")]) (PathToken.key "a") ∧
    getToken (setTokens (some (JsValue.arr [JsValue.num 1, JsValue.num 2]))
        [PathToken.idx 0] (JsValue.num 9)) (PathToken.idx 1) =
      getToken (JsValue.arr [JsValue.num 1, JsValue.num 2]) (PathToken.idx 1) :=
  ⟨setIn_lazy_creation_and_frame.2.2.1 [("a", JsValue.str "keep")] "b" "a" []
      (JsValue.str "v") (by decide),
   setIn_lazy_creation_and_frame.2.2.2 [JsValue.num 1, JsValue.num 2] 0 1 []
      (JsValue.num 9) (by decide) (by decide)⟩

/-- C3: path get/set round-trips — for every object, path and value,
getting path `p` from the result of setting path `p` to `v` returns `v`. -/
theorem getIn_setIn_roundtrip (o : JsValue) (p : String) (v : JsValue) :
    getIn (setIn o p v) p = some v := by
  unfold getIn setIn
  exact getTokens_setTokens (some o) (toPath p) v

/-- C4: dot and bracket syntax are uniform — two path strings with the
same token sequence resolve identically under `getIn`, and the test
paths `user[superPowers][0]` / `user.superPowers[0]` (and
`user[superPowers].1` / `user.superPowers[1]`) parse to the same token
sequences. -/
theorem toPath_dot_bracket_uniform :
    (∀ (o : JsValue) (p₁ p₂ : String),
        toPath p₁ = toPath p₂ → getIn o p₁ = getIn o p₂) ∧
    toPath "user[superPowers][0]" = toPath "user.superPowers[0]" ∧
    toPath "user[superPowers].1" = toPath "user.superPowers[1]" ∧
    toPath "user.superPowers[0]" =
      [PathToken.key "user", PathToken.key "superPowers", PathToken.idx 0] := by
  refine ⟨?_, by decide, by decide, by decide⟩
  intro o p₁ p₂ h
  unfold getIn
  rw [h]

/-- Witness for C4: on the test object, both spellings of the path read
the same element, namely `'Surging'`. -/
theorem toPath_dot_bracket_uniform_witness :
    getIn demoUser "user[superPowers][0]" = getIn demoUser "user.superPowers[0]" ∧
    getIn demoUser "user[superPowers][0]" = some (JsValue.str "Surging") :=
  ⟨toPath_dot_bracket_uniform.1 demoUser "user[superPowers][0]"
      "user.superPowers[0]" (by decide), rfl⟩

theorem alistLookup_mem {α : Type} (l : List (String × α)) (k : String) (v : α)
    (h : alistLookup l k = some v) : (k, v) ∈ l := by
  induction l with
  | nil => simp [alistLookup] at h
  | cons p rest ih =>
      obtain ⟨k2, v2⟩ := p
      by_cases h2 : k2 = k
      · subst h2
        have hv : v2 = v := by simpa [alistLookup] using h
        subst hv
        exact List.mem_cons_self _ _
      · simp only [alistLookup, if_neg h2] at h
        exact List.mem_cons_of_mem _ (ih h)

theorem errWf_shapeValid {sh : ValShape} {e : JsValue} (he : ErrWf sh e) :
    ∀ ts : List PathToken,
      (getTokens e ts).isSome = true → shapeValidB sh ts = true := by
  induction he with
  | prim s =>
      intro ts h
      cases ts with
      | nil => simp [shapeValidB]
      | cons t rest => cases t <;> simp [getTokens, getToken] at h
  | arrStr sh s =>
      intro ts h
      cases ts with
      | nil => simp [shapeValidB]
      | cons t rest => cases t <;> simp [getTokens, getToken] at h
  | arrStrList sh xs h =>
      intro ts hsome
      cases ts with
      | nil => simp [shapeValidB]
      | cons t rest =>
          cases t with
          | key k => simp [getTokens, getToken] at hsome
          | idx i =>
              cases hx : xs[i]? with
              | none => simp [getTokens, getToken, hx] at hsome
              | some x =>
                  obtain ⟨s, rfl⟩ := h x (List.getElem?_mem hx)
                  cases rest with
                  | nil => simp [shapeValidB]
                  | cons t2 r2 =>
                      cases t2 <;>
                        simp [getTokens, getToken, hx] at hsome
  | arrObjList fields xs h ih =>
      intro ts hsome
      cases ts with
      | nil => simp [shapeValidB]
      | cons t rest =>
          cases t with
          | key k => simp [getTokens, getToken] at hsome
          | idx i =>
              cases hx : xs[i]? with
              | none => simp [getTokens, getToken, hx] at hsome
              | some x =>
                  have hrest : (getTokens x rest).isSome = true := by
                    simpa [getTokens, getToken, hx] using hsome
                  simpa [shapeValidB] using ih x (List.getElem?_mem hx) rest hrest
  | objMap fields entries hk h ih =>
      intro ts hsome
      cases ts with
      | nil => simp [shapeValidB]
      | cons t rest =>
          cases t with
          | key k =>
              cases hx : alistLookup entries k with
              | none => simp [getTokens, getToken, hx] at hsome
              | some ev =>
                  have hmem := alistLookup_mem entries k ev hx
                  have hrest : (getTokens ev rest).isSome = true := by
                    simpa [getTokens, getToken, hx] using hsome
                  have hks := hk _ hmem
                  cases hf : alistLookup fields k with
                  | none => simp [hf] at hks
                  | some sh2 =>
                      have := ih _ hmem rest hrest
                      rw [hf] at this
                      simp [shapeValidB, hf]
                      simpa using this
          | idx i =>
              cases hx : alistLookup entries (Nat.repr i) with
              | none => simp [getTokens, getToken, hx] at hsome
              | some ev =>
                  have hmem := alistLookup_mem entries (Nat.repr i) ev hx
                  have hrest : (getTokens ev rest).isSome = true := by
                    simpa [getTokens, getToken, hx] using hsome
                  have hks := hk _ hmem
                  cases hf : alistLookup fields (Nat.repr i) with
                  | none => simp [hf] at hks
                  | some sh2 =>
                      have := ih _ hmem rest hrest
                      rw [hf] at this
                      simp [shapeValidB, hf]
                      simpa using this

theorem touchedWf_shapeValid {sh : ValShape} {t : JsValue} (ht : TouchedWf sh t) :
    ∀ ts : List PathToken,
      (getTokens t ts).isSome = true → shapeValidB sh ts = true := by
  induction ht with
  | prim b =>
      intro ts h
      cases ts with
      | nil => simp [shapeValidB]
      | cons tk rest => cases tk <;> simp [getTokens, getToken] at h
  | arrBool sh b =>
      intro ts h
      cases ts with
      | nil => simp [shapeValidB]
      | cons tk rest => cases tk <;> simp [getTokens, getToken] at h
  | arrObjList fields xs h ih =>
      intro ts hsome
      cases ts with
      | nil => simp [shapeValidB]
      | cons tk rest =>
          cases tk with
          | key k => simp [getTokens, getToken] at hsome
          | idx i =>
              cases hx : xs[i]? with
              | none => simp [getTokens, getToken, hx] at hsome
              | some x =>
                  have hrest : (getTokens x rest).isSome = true := by
                    simpa [getTokens, getToken, hx] using hsome
                  simpa [shapeValidB] using ih x (List.getElem?_mem hx) rest hrest
  | objMap fields entries hk h ih =>
      intro ts hsome
      cases ts with
      | nil => simp [shapeValidB]
      | cons tk rest =>
          cases tk with
          | key k =>
              cases hx : alistLookup entries k with
              | none => simp [getTokens, getToken, hx] at hsome
              | some ev =>
                  have hmem := alistLookup_mem entries k ev hx
                  have hrest : (getTokens ev rest).isSome = true := by
                    simpa [getTokens, getToken, hx] using hsome
                  have hks := hk _ hmem
                  cases hf : alistLookup fields k with
                  | none => simp [hf] at hks
                  | some sh2 =>
                      have := ih _ hmem rest hrest
                      rw [hf] at this
                      simp [shapeValidB, hf]
                      simpa using this
          | idx i =>
              cases hx : alistLookup entries (Nat.repr i) with
              | none => simp [getTokens, getToken, hx] at hsome
              | some ev =>
                  have hmem := alistLookup_mem entries (Nat.repr i) ev hx
                  have hrest : (getTokens ev rest).isSome = true := by
                    simpa [getTokens, getToken, hx] using hsome
                  have hks := hk _ hmem
                  cases hf : alistLookup fields (Nat.repr i) with
                  | none => simp [hf] at hks
                  | some sh2 =>
                      have := ih _ hmem rest hrest
                      rw [hf] at this
                      simp [shapeValidB, hf]
                      simpa using this

theorem errLeavesOkFields_of_all (fs : List (String × JsValue))
    (h : ∀ p ∈ fs, errLeavesOk p.2 = true) : errLeavesOkFields fs = true := by
  induction fs with
  | nil => rfl
  | cons p rest ih =>
      obtain ⟨k, v⟩ := p
      simp only [errLeavesOkFields, Bool.and_eq_true]
      exact ⟨h (k, v) (List.mem_cons_self _ _),
        ih (fun q hq => h q (List.mem_cons_of_mem _ hq))⟩

theorem errLeavesOkList_of_all (xs : List JsValue)
    (h : ∀ x ∈ xs, errLeavesOk x = true) : errLeavesOkList xs = true := by
  induction xs with
  | nil => rfl
  | cons x rest ih =>
      simp only [errLeavesOkList, Bool.and_eq_true]
      exact ⟨h x (List.mem_cons_self _ _),
        ih (fun y hy => h y (List.mem_cons_of_mem _ hy))⟩

theorem touchedLeavesOkFields_of_all (fs : List (String × JsValue))
    (h : ∀ p ∈ fs, touchedLeavesOk p.2 = true) :
    touchedLeavesOkFields fs = true := by
  induction fs with
  | nil => rfl
  | cons p rest ih =>
      obtain ⟨k, v⟩ := p
      simp only [touchedLeavesOkFields, Bool.and_eq_true]
      exact ⟨h (k, v) (List.mem_cons_self _ _),
        ih (fun q hq => h q (List.mem_cons_of_mem _ hq))⟩

theorem touchedLeavesOkList_of_all (xs : List JsValue)
    (h : ∀ x ∈ xs, touchedLeavesOk x = true) : touchedLeavesOkList xs = true := by
  induction xs with
  | nil => rfl
  | cons x rest ih =>
      simp only [touchedLeavesOkList, Bool.and_eq_true]
      exact ⟨h x (List.mem_cons_self _ _),
        ih (fun y hy => h y (List.mem_cons_of_mem _ hy))⟩

theorem errWf_leaves {sh : ValShape} {e : JsValue} (he : ErrWf sh e) :
    errLeavesOk e = true := by
  induction he with
  | prim s => rfl
  | arrStr sh s => rfl
  | arrStrList sh xs h =>
      refine errLeavesOkList_of_all xs (fun x hx => ?_)
      obtain ⟨s, rfl⟩ := h x hx
      rfl
  | arrObjList fields xs h ih =>
      exact errLeavesOkList_of_all xs ih
  | objMap fields entries hk h ih =>
      exact errLeavesOkFields_of_all entries ih

theorem touchedWf_leaves {sh : ValShape} {t : JsValue} (ht : TouchedWf sh t) :
    touchedLeavesOk t = true := by
  induction ht with
  | prim b => rfl
  | arrBool sh b => rfl
  | arrObjList fields xs h ih =>
      exact touchedLeavesOkList_of_all xs ih
  | objMap fields entries hk h ih =>
      exact touchedLeavesOkFields_of_all entries ih

/-- C5: for well-typed form state the errors map and touched map mirror
the path structure of the values record — every token sequence resolvable
in the errors tree or in the touched tree is structurally valid against
the values shape, error leaves are strings and touched leaves are
booleans (while a path valid in values need not be present in either,
since `ErrWf`/`TouchedWf` admit partial maps). -/
theorem errors_touched_mirror_values (sh : ValShape) (e t : JsValue)
    (ts : List PathToken) (he : ErrWf sh e) (ht : TouchedWf sh t) :
    ((getTokens e ts).isSome = true → shapeValidB sh ts = true) ∧
    ((getTokens t ts).isSome = true → shapeValidB sh ts = true) ∧
    errLeavesOk e = true ∧ touchedLeavesOk t = true :=
  ⟨fun h => errWf_shapeValid he ts h, fun h => touchedWf_shapeValid ht ts h,
   errWf_leaves he, touchedWf_leaves ht⟩

/-- Witness for C5 at the one-field shape `{name: string}` with errors
`{name: 'Required'}` and touched `{name: true}` along the path `name`. -/
theorem errors_touched_mirror_values_witness :
    shapeValidB demoShape [PathToken.key "name"] = true ∧
    errLeavesOk demoErrors = true ∧ touchedLeavesOk demoTouched = true := by
  have hew : ErrWf demoShape demoErrors := by
    refine ErrWf.objMap demoShapeFields [("name", JsValue.str "Required")]
      (fun p hp => ?_) (fun p hp => ?_)
    · simp only [List.mem_singleton] at hp
      subst hp
      rfl
    · simp only [List.mem_singleton] at hp
      subst hp
      exact ErrWf.prim "Required"
  have htw : TouchedWf demoShape demoTouched := by
    refine TouchedWf.objMap demoShapeFields [("name", JsValue.bool true)]
      (fun p hp => ?_) (fun p hp => ?_)
    · simp only [List.mem_singleton] at hp
      subst hp
      rfl
    · simp only [List.mem_singleton] at hp
      subst hp
      exact TouchedWf.prim true
  have hw := errors_touched_mirror_values demoShape demoErrors demoTouched
    [PathToken.key "name"] hew htw
  exact ⟨hw.1 rfl, hw.2.2.1, hw.2.2.2⟩

/-- C6: before submission exactly the validator functions of the
currently registered fields run — the validated names are precisely the
registered names that carry a validator; every registered validator is
applied to its field's current value; and every produced result comes
from some registered validator applied to its field's value. -/
theorem runFieldLevelValidation_cons_some (n : String) (f : FieldValidatorM)
    (rest : FieldRegistryM) (values : JsValue) :
    runFieldLevelValidation ((n, some f) :: rest) values =
      (n, f (getIn values n)) :: runFieldLevelValidation rest values := rfl

theorem runFieldLevelValidation_cons_none (n : String)
    (rest : FieldRegistryM) (values : JsValue) :
    runFieldLevelValidation ((n, none) :: rest) values =
      runFieldLevelValidation rest values := rfl

theorem fieldsWithValidators_cons_some (n : String) (f : FieldValidatorM)
    (rest : FieldRegistryM) :
    fieldsWithValidators ((n, some f) :: rest) =
      n :: fieldsWithValidators rest := rfl

theorem fieldsWithValidators_cons_none (n : String)
    (rest : FieldRegistryM) :
    fieldsWithValidators ((n, none) :: rest) = fieldsWithValidators rest := rfl

theorem run_exactly_registered_validators (reg : FieldRegistryM)
    (values : JsValue) :
    (runFieldLevelValidation reg values).map Prod.fst =
      fieldsWithValidators reg ∧
    (∀ (name : String) (f : FieldValidatorM), (name, some f) ∈ reg →
        (name, f (getIn values name)) ∈ runFieldLevelValidation reg values) ∧
    (∀ (name : String) (r : Option String),
        (name, r) ∈ runFieldLevelValidation reg values →
        ∃ f, (name, some f) ∈ reg ∧ r = f (getIn values name)) := by
  refine ⟨?_, ?_, ?_⟩
  · induction reg with
    | nil => rfl
    | cons p rest ih =>
        obtain ⟨n, v⟩ := p
        cases v with
        | none =>
            rw [runFieldLevelValidation_cons_none,
              fieldsWithValidators_cons_none]
            exact ih
        | some f =>
            rw [runFieldLevelValidation_cons_some,
              fieldsWithValidators_cons_some, List.map_cons, ih]
  · intro name f hmem
    induction reg with
    | nil => simp at hmem
    | cons p rest ih =>
        obtain ⟨n, v⟩ := p
        rcases List.mem_cons.1 hmem with heq | hrest
        · obtain ⟨h1, h2⟩ : name = n ∧ some f = v := by
            simpa [Prod.ext_iff] using heq
          subst h1
          subst h2
          rw [runFieldLevelValidation_cons_some]
          exact List.mem_cons_self _ _
        · have hih := ih hrest
          cases v with
          | none =>
              rw [runFieldLevelValidation_cons_none]
              exact hih
          | some g =>
              rw [runFieldLevelValidation_cons_some]
              exact List.mem_cons_of_mem _ hih
  · intro name r hmem
    induction reg with
    | nil => simp [runFieldLevelValidation] at hmem
    | cons p rest ih =>
        obtain ⟨n, v⟩ := p
        cases v with
        | none =>
            rw [runFieldLevelValidation_cons_none] at hmem
            obtain ⟨f, hf, hr⟩ := ih hmem
            exact ⟨f, List.mem_cons_of_mem _ hf, hr⟩
        | some g =>
            rw [runFieldLevelValidation_cons_some] at hmem
            rcases List.mem_cons.1 hmem with heq | hrest
            · obtain ⟨h1, h2⟩ : name = n ∧ r = g (getIn values n) := by
                simpa [Prod.ext_iff] using heq
              subst h1
              exact ⟨g, List.mem_cons_self _ _, h2⟩
            · obtain ⟨f, hf, hr⟩ := ih hrest
              exact ⟨f, List.mem_cons_of_mem _ hf, hr⟩

/-- Witness for C6: in the registry `{name: validator, age: none}` the
validator of `name` runs on the field's current value. -/
theorem run_exactly_registered_validators_witness :
    ("name", (fun _ => some "Required" : FieldValidatorM)
        (getIn demoUser "name")) ∈
      runFieldLevelValidation demoRegistry demoUser :=
  (run_exactly_registered_validators demoRegistry demoUser).2.1 "name"
    (fun _ => some "Required") (by simp [demoRegistry])

theorem alistLookup_append {α : Type} (l1 l2 : List (String × α))
    (k : String) :
    alistLookup (l1 ++ l2) k =
      match alistLookup l1 k with
      | some v => some v
      | none => alistLookup l2 k := by
  induction l1 with
  | nil => simp [alistLookup]
  | cons p rest ih =>
      obtain ⟨k2, v2⟩ := p
      by_cases h : k2 = k <;> simp [alistLookup, h, ih]

theorem alistLookup_deepMergeFs (fa fb : List (String × JsValue))
    (k : String) :
    alistLookup (deepMergeFs fa fb) k =
      match alistLookup fa k with
      | some va =>
          some (match alistLookup fb k with
                | some vb => deepMerge va vb
                | none => va)
      | none => none := by
  induction fa with
  | nil => simp [deepMergeFs, alistLookup]
  | cons p rest ih =>
      obtain ⟨k2, va⟩ := p
      by_cases h : k2 = k <;> simp [deepMergeFs, alistLookup, h, ih]

theorem alistLookup_restFields (fa fb : List (String × JsValue))
    (k : String) :
    alistLookup (restFields fa fb) k =
      if (alistLookup fa k).isNone then alistLookup fb k else none := by
  induction fb with
  | nil => simp [restFields, alistLookup]
  | cons p rest ih =>
      obtain ⟨k2, v2⟩ := p
      simp only [restFields, List.filter_cons] at ih ⊢
      by_cases hfa2 : (alistLookup fa k2).isNone = true
      · by_cases hk : k2 = k
        · subst hk
          simp [hfa2, alistLookup]
        · simp [hfa2, alistLookup, hk, ih]
      · by_cases hk : k2 = k
        · subst hk
          simp only [Bool.not_eq_true] at hfa2
          simp [hfa2, alistLookup, ih]
        · simp [hfa2, alistLookup, hk, ih]

theorem deepMerge_obj_lookup (fa fb : List (String × JsValue)) (k : String) :
    getToken (deepMerge (JsValue.obj fa) (JsValue.obj fb))
        (PathToken.key k) =
      match alistLookup fa k, alistLookup fb k with
      | some va, some vb => some (deepMerge va vb)
      | some va, none => some va
      | none, some vb => some vb
      | none, none => none := by
  simp only [deepMerge, getToken]
  rw [alistLookup_append, alistLookup_deepMergeFs, alistLookup_restFields]
  cases hfa : alistLookup fa k <;> cases hfb : alistLookup fb k <;> simp

/-- C7: validation failures are data, not thrown faults — every result of
field-level validation is either success (`none`) or an error-message
value (`some s`); and combining per-field with whole-form error maps is a
deep merge: at each key the merged map holds the recursive merge when
both sides have the key, and the present side's entry otherwise. -/
theorem validation_failures_as_data_and_merge :
    (∀ (reg : FieldRegistryM) (values : JsValue) (p : String × Option String),
        p ∈ runFieldLevelValidation reg values →
        p.2 = none ∨ ∃ s, p.2 = some s) ∧
    (∀ (fa fb : List (String × JsValue)) (k : String),
        getToken (deepMerge (JsValue.obj fa) (JsValue.obj fb))
            (PathToken.key k) =
          match alistLookup fa k, alistLookup fb k with
          | some va, some vb => some (deepMerge va vb)
          | some va, none => some va
          | none, some vb => some vb
          | none, none => none) := by
  constructor
  · intro reg values p hp
    cases h : p.2 with
    | none => exact Or.inl rfl
    | some s => exact Or.inr ⟨s, rfl⟩
  · intro fa fb k
    exact deepMerge_obj_lookup fa fb k

/-- Witness for C7: the result `name` validation produced on the demo
form is data — an error message or success. -/
theorem validation_failures_as_data_and_merge_witness :
    (("name", (some "Required" : Option String)).2 = none ∨
      ∃ s, (("name", (some "Required" : Option String)).2 = some s)) :=
  validation_failures_as_data_and_merge.1 demoRegistry demoUser
    ("name", some "Required") (by simp [runFieldLevelValidation, demoRegistry])

/-- C8: `ErrorMessage` renders the field's error exactly when the touched
value and the error value at the field's path are both truthy, and
renders null otherwise; when it renders, the first present of `render`,
`children`, `component` is used, and the bare error string when none
is. -/
theorem errorMessage_render_decision (props : EMProps)
    (formik : FormikSlice) :
    (¬(truthyOpt (getIn formik.touched props.name) = true ∧
        truthyOpt (getIn formik.errors props.name) = true) →
      errorMessageRender props formik = RNode.null) ∧
    (∀ e : JsValue, getIn formik.errors props.name = some e →
      truthyOpt (getIn formik.touched props.name) = true →
      truthy e = true →
      errorMessageRender props formik =
        match props.render, props.children, props.component with
        | some r, _, _ => r e
        | none, some c, _ => c e
        | none, none, some comp => RNode.elementWith comp e
        | none, none, none => RNode.raw e) := by
  constructor
  · intro hn
    have hb : (truthyOpt (getIn formik.touched props.name) &&
        truthyOpt (getIn formik.errors props.name)) = false := by
      cases h1 : truthyOpt (getIn formik.touched props.name) <;>
        cases h2 : truthyOpt (getIn formik.errors props.name) <;>
          simp_all
    simp [errorMessageRender, hb]
  · intro e he htr herr
    have hsome : truthyOpt (some e) = truthy e := rfl
    simp only [errorMessageRender, he]
    rw [if_pos (by rw [htr, hsome, herr]; rfl)]
    rcases props.render with _ | r <;> rcases props.children with _ | c <;>
      rcases props.component with _ | comp <;> simp

/-- Witness for C8: with `{name: 'Required'}` errors, `{name: true}`
touched and no `render`/`children`/`component` prop, the bare error is
rendered. -/
theorem errorMessage_render_decision_witness :
    errorMessageRender demoEMProps demoFormikSlice =
      RNode.raw (JsValue.str "Required") :=
  (errorMessage_render_decision demoEMProps demoFormikSlice).2
    (JsValue.str "Required") rfl rfl rfl

/-- C9: in `useFieldProps`, a checkbox with an explicit `value` prop is
checked exactly when the field state is an array containing a
strictly-equal element; a checkbox without a `value` prop is checked by
the truthiness of the field state; a radio is checked exactly when the
field state strictly equals the `value` prop. -/
theorem useFieldProps_checked (vs : Option JsValue) (vp : JsValue) :
    (fieldChecked "checkbox" vs (some vp) = some true ↔
      ∃ xs, vs = some (JsValue.arr xs) ∧ ∃ x ∈ xs, jsStrictEq x vp = true) ∧
    fieldChecked "checkbox" vs none = some (truthyOpt vs) ∧
    (∀ vp2 : Option JsValue,
      fieldChecked "radio" vs vp2 = some true ↔
        optStrictEq vs vp2 = true) := by
  refine ⟨?_, ?_, ?_⟩
  · constructor
    · intro h
      cases vs with
      | none => simp [fieldChecked] at h
      | some v =>
          cases v with
          | arr xs =>
              refine ⟨xs, rfl, ?_⟩
              simpa [fieldChecked, List.any_eq_true] using h
          | null => simp [fieldChecked] at h
          | bool b => simp [fieldChecked] at h
          | num n => simp [fieldChecked] at h
          | str s => simp [fieldChecked] at h
          | obj fs => simp [fieldChecked] at h
    · rintro ⟨xs, rfl, x, hx, hxe⟩
      simp only [fieldChecked, if_pos rfl]
      simp [List.any_eq_true]
      exact ⟨x, hx, hxe⟩
  · simp [fieldChecked]
  · intro vp2
    simp [fieldChecked]

theorem alistLookup_remove_self {α : Type} (l : List (String × α))
    (k : String) : alistLookup (alistRemove l k) k = none := by
  induction l with
  | nil => rfl
  | cons p rest ih =>
      obtain ⟨k2, v2⟩ := p
      by_cases h : k2 = k
      · simpa [alistRemove, List.filter_cons, h] using ih
      · simpa [alistRemove, List.filter_cons, h, alistLookup] using ih

/-- C10: the registration lifecycle keeps the registry consistent with
the mounted field — mounting registers the name; an update that changes
the name leaves the previous name unregistered and the new name
registered (whether or not the validator also changed); unmounting leaves
the name unregistered. -/
theorem field_registration_lifecycle (reg : FieldRegistryM)
    (prevName name : String) (v : Option FieldValidatorM) (vc : Bool) :
    registeredB (lifecycleMount reg name v) name = true ∧
    (name ≠ prevName →
      registeredB (lifecycleUpdate reg prevName name v vc) prevName = false) ∧
    (name ≠ prevName →
      registeredB (lifecycleUpdate reg prevName name v vc) name = true) ∧
    registeredB (lifecycleUnmount reg name) name = false := by
  refine ⟨?_, ?_, ?_, ?_⟩
  · simp [registeredB, lifecycleMount, registerField, alistLookup_update_self]
  · intro hne
    cases vc <;>
      simp [lifecycleUpdate, hne, registeredB, registerField, unregisterField,
        alistLookup_update_ne _ _ _ _ (Ne.symm hne), alistLookup_remove_self]
  · intro hne
    cases vc <;>
      simp [lifecycleUpdate, hne, registeredB, registerField, unregisterField,
        alistLookup_update_self]
  · simp [registeredB, lifecycleUnmount, unregisterField,
      alistLookup_remove_self]

/-- Witness for C10: renaming a mounted field from `email` to `username`
leaves `email` unregistered and `username` registered. -/
theorem field_registration_lifecycle_witness :
    registeredB (lifecycleUpdate [("email", none)] "email" "username" none
      false) "email" = false ∧
    registeredB (lifecycleUpdate [("email", none)] "email" "username" none
      false) "username" = true :=
  ⟨(field_registration_lifecycle [("email", none)] "email" "username" none
      false).2.1 (by decide),
   (field_registration_lifecycle [("email", none)] "email" "username" none
      false).2.2.1 (by decide)⟩

end Formik
